import Mathlib

/-!
Shallow embedding of the Wordle solver (`solver.py`) and proofs of its
specified properties.

Words are modelled as lists of characters.  The feedback function
`feedback` is the two-pass algorithm `_feedback` of the source: a first
pass marks exact-position matches as 'G' and consumes the matched answer
letters, a second pass marks, left to right, positions whose guess letter
still occurs among the unconsumed answer letters as 'Y', consuming the
first such occurrence, and leaves the rest as 'B'.
-/

abbrev Word := List Char

/-- One entry of the `answer_remaining` buffer: `none` means the letter at
that position has been consumed (Python sets it to `None`). -/
abbrev RemEntry := Option Char

/-- First pass of `_feedback`: per position, 'G' when the guess and answer
letters coincide, 'B' otherwise. -/
def greenPass (guess answer : Word) : List Char :=
  List.zipWith (fun g a => if g = a then 'G' else 'B') guess answer

/-- The `answer_remaining` buffer after the first pass: positions matched
exactly are consumed (`none`), the others keep the answer letter. -/
def remainingAfterGreens (guess answer : Word) : List RemEntry :=
  List.zipWith (fun g a => if g = a then (none : RemEntry) else some a) guess answer

/-- `answer_remaining[answer_remaining.index(c)] = None`: consume the first
unconsumed occurrence of the letter `c`. -/
def consumeFirst (c : Char) : List RemEntry → List RemEntry
  | [] => []
  | x :: xs => if x = some c then none :: xs else x :: consumeFirst c xs

/-- Second pass of `_feedback`: walk the guess letters together with the
first-pass feedback; a 'B' position whose letter still occurs among the
unconsumed answer letters becomes 'Y' and consumes that occurrence. -/
def yellowPass : List Char → List Char → List RemEntry → List Char
  | g :: gs, f :: fs, rem =>
    if f = 'B' ∧ some g ∈ rem then
      'Y' :: yellowPass gs fs (consumeFirst g rem)
    else
      f :: yellowPass gs fs rem
  | _, _, _ => []

/-- `_feedback(guess, answer)` of the source: the Wordle feedback pattern,
'G' green, 'Y' yellow, 'B' gray. -/
def feedback (guess answer : Word) : List Char :=
  yellowPass guess (greenPass guess answer) (remainingAfterGreens guess answer)

theorem yellowPass_length : ∀ (gs fs : List Char) (rem : List RemEntry),
    (yellowPass gs fs rem).length = min gs.length fs.length := by
  intro gs
  induction gs with
  | nil => intro fs rem; cases fs <;> simp [yellowPass]
  | cons g gs ih =>
    intro fs rem
    cases fs with
    | nil => simp [yellowPass]
    | cons f fs =>
      by_cases h : f = 'B' ∧ some g ∈ rem <;>
        simp [yellowPass, h, ih, Nat.succ_min_succ]

theorem greenPass_self (w : Word) : greenPass w w = List.replicate w.length 'G' := by
  induction w with
  | nil => rfl
  | cons c w _ => simp [greenPass, List.replicate]

/-- The second pass never touches a position already marked 'G'. -/
theorem yellowPass_of_all_G : ∀ (gs fs : List Char) (rem : List RemEntry),
    (∀ c ∈ fs, c = 'G') → yellowPass gs fs rem = fs.take gs.length := by
  intro gs
  induction gs with
  | nil => intro fs rem _; cases fs <;> rfl
  | cons g gs ih =>
    intro fs rem hfs
    cases fs with
    | nil => rfl
    | cons f fs =>
      have hf : f = 'G' := hfs f (by simp)
      have hcond : ¬(f = 'B' ∧ some g ∈ rem) := by
        rintro ⟨hb, -⟩; rw [hf] at hb; exact absurd hb (by decide)
      simp only [yellowPass, if_neg hcond, List.length_cons, List.take_succ_cons]
      rw [ih fs rem (fun c hc => hfs c (by simp [hc]))]

theorem feedback_self (w : Word) : feedback w w = List.replicate w.length 'G' := by
  unfold feedback
  rw [greenPass_self, yellowPass_of_all_G]
  · rw [List.take_of_length_le (by simp)]
  · intro c hc; exact List.eq_of_mem_replicate hc

/-- If the final pattern is all 'G' then so was the first-pass pattern
(the second pass only produces 'Y' or keeps the first-pass mark). -/
theorem yellowPass_replicate_G : ∀ (gs fs : List Char) (rem : List RemEntry) (n : Nat),
    yellowPass gs fs rem = List.replicate n 'G' →
    fs.take gs.length = List.replicate n 'G' := by
  intro gs
  induction gs with
  | nil =>
    intro fs rem n h
    have h0 : yellowPass [] fs rem = [] := by cases fs <;> rfl
    rw [h0] at h
    simpa using h
  | cons g gs ih =>
    intro fs rem n h
    cases fs with
    | nil =>
      simp [yellowPass] at h
      simp [h]
    | cons f fs =>
      by_cases hcond : f = 'B' ∧ some g ∈ rem
      · simp only [yellowPass, if_pos hcond] at h
        cases n with
        | zero => simp at h
        | succ n =>
          rw [List.replicate_succ] at h
          exact absurd (List.head_eq_of_cons_eq h) (by decide)
      · simp only [yellowPass, if_neg hcond] at h
        cases n with
        | zero => simp at h
        | succ n =>
          rw [List.replicate_succ] at h
          have h1 := List.head_eq_of_cons_eq h
          have h2 := List.tail_eq_of_cons_eq h
          simp only [List.length_cons, List.take_succ_cons, List.replicate_succ, h1]
          rw [ih fs rem n h2]

theorem greenPass_replicate_G : ∀ (gs as : List Char),
    gs.length = as.length → greenPass gs as = List.replicate gs.length 'G' → gs = as := by
  intro gs
  induction gs with
  | nil => intro as hlen _; exact (List.eq_nil_of_length_eq_zero hlen.symm).symm
  | cons g gs ih =>
    intro as hlen h
    cases as with
    | nil => simp at hlen
    | cons a as =>
      simp only [greenPass, List.zipWith_cons_cons, List.length_cons,
        List.replicate_succ] at h
      have h1 := List.head_eq_of_cons_eq h
      have h2 := List.tail_eq_of_cons_eq h
      have hga : g = a := by
        by_contra hne
        rw [if_neg hne] at h1
        exact absurd h1 (by decide)
      have := ih as (by simpa using hlen) h2
      rw [hga, this]

/-- A feedback pattern of all greens forces the guess to equal the answer
(for words of equal length). -/
theorem feedback_all_G_imp_eq (g a : Word) (hlen : g.length = a.length)
    (h : feedback g a = List.replicate g.length 'G') : g = a := by
  unfold feedback at h
  have htake := yellowPass_replicate_G g (greenPass g a) (remainingAfterGreens g a)
    g.length h
  have hgl : (greenPass g a).length = g.length := by
    simp [greenPass, hlen]
  rw [List.take_of_length_le (le_of_eq hgl)] at htake
  exact greenPass_replicate_G g a hlen htake

/-- Python's `max(xs, key=f)` over the iteration order of a list: keep the
current best, replace it only on a strictly larger key, so the first
element attaining the maximum wins. -/
def argmaxList {α β : Type} [LinearOrder β] (f : α → β) : List α → Option α
  | [] => none
  | w :: ws => some (ws.foldl (fun best x => if f best < f x then x else best) w)

/-- `position_counts[i][ch]`: how many candidate words have letter `ch` at
position `i`. -/
def positionCount (candidates : List Word) (i : Nat) (ch : Char) : Nat :=
  candidates.countP (fun w => decide (w.get? i = some ch))

/-- `overall_counts[ch]`: how many candidate words contain `ch` anywhere
(each word contributes each distinct letter once, via `set(word)`). -/
def overallCount (candidates : List Word) (ch : Char) : Nat :=
  candidates.countP (fun w => decide (ch ∈ w))

/-- Score accumulation of `select_initial_word`: scan the word left to
right, adding the normalized same-position frequency at every position
and, on the first occurrence of each letter, half the normalized
frequency of the letter occurring elsewhere (`used_letters` bookkeeping). -/
def scoreWordAux (candidates : List Word) (total : ℚ) :
    List Char → Nat → List Char → ℚ
  | _, _, [] => 0
  | used, i, ch :: rest =>
    let freq_pos : ℚ := (positionCount candidates i ch : ℚ) / total
    let elsewhere : ℚ :=
      ((overallCount candidates ch : ℚ) - (positionCount candidates i ch : ℚ)) / total
    if ch ∈ used then
      freq_pos + scoreWordAux candidates total used (i + 1) rest
    else
      freq_pos + (1 / 2) * elsewhere +
        scoreWordAux candidates total (ch :: used) (i + 1) rest

/-- The score `select_initial_word` assigns to one candidate word
(exact rational arithmetic in place of the source's floats). -/
def scoreWord (candidates : List Word) (w : Word) : ℚ :=
  scoreWordAux candidates (candidates.length : ℚ) [] 0 w

/-- `select_initial_word(candidates)`: the candidate of maximal score,
first-encountered on ties; `none` models the `ValueError` Python's `max`
raises on an empty sequence. -/
def select_initial_word (candidates : List Word) : Option Word :=
  argmaxList (scoreWord candidates) candidates

/-- `calculate_entropy(guess, candidates)`: Shannon entropy of the
partition of the candidates by their feedback pattern against `guess`. -/
noncomputable def calculate_entropy (guess : Word) (candidates : List Word) : ℝ :=
  let patterns := candidates.map (fun w => feedback guess w)
  let total : ℝ := (candidates.length : ℝ)
  let contribs : List ℝ := patterns.dedup.map (fun pat =>
    ((patterns.count pat : ℝ) / total) * Real.logb 2 ((patterns.count pat : ℝ) / total))
  0 - contribs.sum

/-- `select_best_entropy_word(candidates)`: the candidate of maximal
entropy, first-encountered on ties; `none` models `max`'s `ValueError`
on an empty sequence. -/
noncomputable def select_best_entropy_word (candidates : List Word) : Option Word :=
  argmaxList (fun w => calculate_entropy w candidates) candidates

/-- Outcome of `solve_wordle`: either the normal return (here enriched
with the remaining candidate list after each attempt, whose guesses are
the returned `attempts`) or the `ValueError` a selector raises on an
empty candidate set. -/
inductive SolveResult where
  | trace (t : List (Word × List Word))
  | valueError
deriving DecidableEq

/-- The `while True` loop of `solve_wordle`, with explicit fuel; `none`
means the fuel ran out before the loop exited. Each iteration selects a
guess (frequency heuristic on the first turn, entropy afterwards),
records it with the filtered candidate list, and stops when the guess is
the correct word or no candidates remain. -/
noncomputable def solveAux (correct : Word) : Nat → List Word → Bool → Option SolveResult
  | 0, _, _ => none
  | fuel + 1, remaining, isFirst =>
    match (if isFirst then select_initial_word remaining
           else select_best_entropy_word remaining) with
    | none => some SolveResult.valueError
    | some guess =>
      let fb := feedback guess correct
      let remaining2 := remaining.filter (fun w => decide (feedback guess w = fb))
      if guess = correct ∨ remaining2 = [] then
        some (SolveResult.trace [(guess, remaining2)])
      else
        match solveAux correct fuel remaining2 false with
        | some (SolveResult.trace t) => some (SolveResult.trace ((guess, remaining2) :: t))
        | r => r

/-- `solve_wordle(candidates, correct_word)`. The fuel `|candidates| + 1`
is enough for every run that terminates in Python (the candidate list
shrinks strictly between iterations). -/
noncomputable def solve_wordle (candidates : List Word) (correct : Word) : Option SolveResult :=
  solveAux correct (candidates.length + 1) candidates true

/-- The value `solve_wordle` actually returns in Python: the bare list of
attempts, in order of issuance. -/
noncomputable def solve_attempts (candidates : List Word) (correct : Word) : Option (List Word) :=
  match solve_wordle candidates correct with
  | some (SolveResult.trace t) => some (t.map Prod.fst)
  | _ => none

theorem filter_length_lt {α : Type} (p : α → Bool) :
    ∀ (l : List α) (x : α), x ∈ l → p x = false → (l.filter p).length < l.length := by
  intro l
  induction l with
  | nil => intro x hx; exact absurd hx (List.not_mem_nil x)
  | cons y l ih =>
    intro x hx hpx
    rcases List.mem_cons.1 hx with rfl | hx
    · rw [List.filter_cons, hpx]
      simp only [List.length_cons]
      exact Nat.lt_succ_of_le (List.length_filter_le p l)
    · rw [List.filter_cons]
      cases hpy : p y
      · simp only [cond_false, List.length_cons]
        exact Nat.lt_succ_of_lt (ih x hx hpx)
      · simp only [cond_true, List.length_cons]
        exact Nat.succ_lt_succ (ih x hx hpx)

/-- The fold underlying `argmaxList` returns the first element attaining
the maximum of `f`: everything before it scores strictly less, everything
after it scores no more. -/
theorem argmax_foldl_firstMax {α β : Type} [LinearOrder β] (f : α → β) :
    ∀ (ws : List α) (w : α), ∃ l₁ l₂,
      w :: ws = l₁ ++ (ws.foldl (fun best x => if f best < f x then x else best) w) :: l₂ ∧
      (∀ y ∈ l₁, f y < f (ws.foldl (fun best x => if f best < f x then x else best) w)) ∧
      (∀ y ∈ l₂, f y ≤ f (ws.foldl (fun best x => if f best < f x then x else best) w)) := by
  intro ws
  induction ws with
  | nil =>
    intro w
    exact ⟨[], [], rfl, by intro y hy; exact absurd hy (List.not_mem_nil y),
      by intro y hy; exact absurd hy (List.not_mem_nil y)⟩
  | cons x ws ih =>
    intro w
    by_cases hx : f w < f x
    · have hfold : (x :: ws).foldl (fun best v => if f best < f v then v else best) w =
          ws.foldl (fun best v => if f best < f v then v else best) x := by
        simp [List.foldl_cons, hx]
      obtain ⟨l₁, l₂, heq, h₁, h₂⟩ := ih x
      refine ⟨w :: l₁, l₂, ?_, ?_, by rw [hfold]; exact h₂⟩
      · rw [hfold, List.cons_append, ← heq]
      · intro y hy
        have hxb : f x ≤ f (ws.foldl (fun best v => if f best < f v then v else best) x) := by
          cases l₁ with
          | nil =>
            have hx2 : x = ws.foldl (fun best v => if f best < f v then v else best) x := by
              have := congrArg (fun l => List.head? l) heq
              simpa using this
            exact le_of_eq (congrArg f hx2)
          | cons z l₁ =>
            have hz : z = x := by
              have := congrArg (fun l => List.head? l) heq
              simpa using this.symm
            have hlt := h₁ z (by simp)
            rw [hz] at hlt
            exact le_of_lt hlt
        rw [hfold]
        rcases List.mem_cons.1 hy with rfl | hy
        · exact lt_of_lt_of_le hx hxb
        · exact h₁ y hy
    · have hfold : (x :: ws).foldl (fun best v => if f best < f v then v else best) w =
          ws.foldl (fun best v => if f best < f v then v else best) w := by
        simp [List.foldl_cons, hx]
      obtain ⟨l₁, l₂, heq, h₁, h₂⟩ := ih w
      cases l₁ with
      | nil =>
        have hw : w = ws.foldl (fun best v => if f best < f v then v else best) w := by
          have := congrArg (fun l => List.head? l) heq
          simpa using this
        have htl : ws = l₂ := by
          have := congrArg (fun l => List.tail l) heq
          simpa [← hw] using this
        refine ⟨[], x :: l₂, ?_, by intro y hy; exact absurd hy (List.not_mem_nil y), ?_⟩
        · rw [hfold, List.nil_append, ← hw, htl]
        · intro y hy
          rcases List.mem_cons.1 hy with rfl | hy
          · rw [hfold, ← hw]; exact le_of_not_lt hx
          · rw [hfold]; exact h₂ y hy
      | cons z l₁ =>
        have hz : z = w := by
          have := congrArg (fun l => List.head? l) heq
          simpa using this.symm
        have htl : ws = l₁ ++ (ws.foldl (fun best v => if f best < f v then v else best) w) :: l₂ := by
          have := congrArg (fun l => List.tail l) heq
          simpa using this
        refine ⟨w :: x :: l₁, l₂, ?_, ?_, by rw [hfold]; exact h₂⟩
        · rw [hfold]
          simp only [List.cons_append]
          rw [← htl]
        · intro y hy
          rw [hfold]
          rcases List.mem_cons.1 hy with rfl | hy
          · exact hz ▸ h₁ z (by simp)
          · rcases List.mem_cons.1 hy with rfl | hy
            · exact lt_of_le_of_lt (le_of_not_lt hx) (hz ▸ h₁ z (by simp))
            · exact h₁ y (by simp [hy])

/-- On a nonempty list, `argmaxList` returns a member of the list. -/
theorem argmaxList_mem {α β : Type} [LinearOrder β] (f : α → β) (l : List α)
    (h : l ≠ []) : ∃ w, argmaxList f l = some w ∧ w ∈ l := by
  cases l with
  | nil => exact absurd rfl h
  | cons x ws =>
    obtain ⟨l₁, l₂, heq, -, -⟩ := argmax_foldl_firstMax f ws x
    exact ⟨_, rfl, by rw [heq]; exact List.mem_append_right l₁ (List.mem_cons_self _ _)⟩

/-- Filtering by agreement with the answer's own feedback pattern keeps
the answer: the predicate is reflexively true at the answer. -/
theorem answer_mem_filter (g a : Word) (C : List Word) (hmem : a ∈ C) :
    a ∈ C.filter (fun w => decide (feedback g w = feedback g a)) :=
  List.mem_filter.2 ⟨hmem, by simp⟩

/-- A five-letter guess different from a five-letter answer never
survives the elimination filter: its own feedback is all greens, which
by `feedback_all_G_imp_eq` cannot match the answer's pattern. -/
theorem guess_not_mem_filter (g a : Word) (hg : g.length = 5) (ha : a.length = 5)
    (hne : g ≠ a) (C : List Word) :
    g ∉ C.filter (fun w => decide (feedback g w = feedback g a)) := by
  intro hmem
  have hpred := (List.mem_filter.1 hmem).2
  have heq : feedback g g = feedback g a := of_decide_eq_true hpred
  have hG : feedback g a = List.replicate g.length 'G' := by
    rw [← heq, feedback_self]
  exact hne (feedback_all_G_imp_eq g a (hg.trans ha.symm) hG)

/-- Either selector, on a nonempty candidate list, returns a member of
that list. -/
theorem selector_mem (remaining : List Word) (first : Bool) (h : remaining ≠ []) :
    ∃ g, (if first then select_initial_word remaining
          else select_best_entropy_word remaining) = some g ∧ g ∈ remaining := by
  cases first
  · simpa [select_best_entropy_word] using
      argmaxList_mem (fun w => calculate_entropy w remaining) remaining h
  · simpa [select_initial_word] using
      argmaxList_mem (scoreWord remaining) remaining h

/-- Main loop invariant when the answer is among the candidates: with
enough fuel the loop returns a nonempty trace whose last guess is the
answer, the remaining-candidate counts are non-increasing, and the answer
(a five-letter word, like all candidates) stays in every remaining set. -/
theorem solveAux_sound (a : Word) :
    ∀ (fuel : Nat) (remaining : List Word) (first : Bool),
      a ∈ remaining → (∀ w ∈ remaining, w.length = 5) →
      remaining.length < fuel →
      ∃ t, solveAux a fuel remaining first = some (SolveResult.trace t) ∧
        t ≠ [] ∧
        (t.map Prod.fst).getLast? = some a ∧
        List.Chain' (fun m n => n ≤ m) (remaining.length :: t.map (fun p => p.2.length)) ∧
        (∀ p ∈ t, a ∈ p.2 ∧ ∀ w ∈ p.2, w.length = 5) := by
  intro fuel
  induction fuel with
  | zero => intro remaining first _ _ hfuel; exact absurd hfuel (Nat.not_lt_zero _)
  | succ fuel ih =>
    intro remaining first hmem hlen hfuel
    have hne : remaining ≠ [] := List.ne_nil_of_mem hmem
    obtain ⟨guess, hsel, hgmem⟩ := selector_mem remaining first hne
    have ha2 : a ∈ remaining.filter (fun w => decide (feedback guess w = feedback guess a)) :=
      answer_mem_filter guess a remaining hmem
    have hlen2 : ∀ w ∈ remaining.filter
        (fun w => decide (feedback guess w = feedback guess a)), w.length = 5 :=
      fun w hw => hlen w (List.mem_of_mem_filter hw)
    have hle2 : (remaining.filter
        (fun w => decide (feedback guess w = feedback guess a))).length ≤ remaining.length :=
      List.length_filter_le _ _
    by_cases hga : guess = a
    · refine ⟨[(guess, remaining.filter
        (fun w => decide (feedback guess w = feedback guess a)))], ?_, by simp, ?_, ?_, ?_⟩
      · rw [solveAux, hsel]
        simp only [if_pos (Or.inl hga)]
      · simp [hga]
      · simpa using hle2
      · intro p hp
        rw [List.mem_singleton] at hp
        rw [hp]
        exact ⟨ha2, hlen2⟩
    · have hr2ne : remaining.filter
          (fun w => decide (feedback guess w = feedback guess a)) ≠ [] :=
        List.ne_nil_of_mem ha2
      have hglt : (remaining.filter
          (fun w => decide (feedback guess w = feedback guess a))).length < remaining.length := by
        refine filter_length_lt _ remaining guess hgmem ?_
        have := guess_not_mem_filter guess a (hlen guess hgmem) (hlen a hmem) hga remaining
        by_contra hfalse
        exact this (List.mem_filter.2 ⟨hgmem, by simpa using hfalse⟩)
      have hfuel2 : (remaining.filter
          (fun w => decide (feedback guess w = feedback guess a))).length < fuel :=
        Nat.lt_of_lt_of_le hglt (Nat.lt_succ_iff.1 hfuel)
      obtain ⟨t, ht, htne, hlast, hchain, hall⟩ :=
        ih (remaining.filter (fun w => decide (feedback guess w = feedback guess a)))
          false ha2 hlen2 hfuel2
      refine ⟨(guess, remaining.filter
        (fun w => decide (feedback guess w = feedback guess a))) :: t, ?_, by simp, ?_, ?_, ?_⟩
      · have hcond : ¬(guess = a ∨ remaining.filter
            (fun w => decide (feedback guess w = feedback guess a)) = []) := by
          push_neg
          exact ⟨hga, hr2ne⟩
        rw [solveAux, hsel]
        simp only [if_neg hcond]
        rw [ht]
      · have hmapne : t.map Prod.fst ≠ [] := by
          intro hcontra
          exact htne (List.map_eq_nil_iff.1 hcontra)
        rw [List.map_cons]
        cases hmap : t.map Prod.fst with
        | nil => exact absurd hmap hmapne
        | cons y ys =>
          rw [List.getLast?_cons_cons]
          rw [hmap] at hlast
          exact hlast
      · rw [List.map_cons]
        exact List.chain'_cons.2 ⟨hle2, hchain⟩
      · intro p hp
        rcases List.mem_cons.1 hp with rfl | hp
        · exact ⟨ha2, hlen2⟩
        · exact hall p hp

/-- Loop invariant when the answer is absent from the (nonempty,
five-letter) candidates: with enough fuel the loop still returns a trace,
whose last record has an empty remaining set and a final guess different
from the answer. -/
theorem solveAux_exhausts (a : Word) (ha : a.length = 5) :
    ∀ (fuel : Nat) (remaining : List Word) (first : Bool),
      a ∉ remaining → remaining ≠ [] → (∀ w ∈ remaining, w.length = 5) →
      remaining.length < fuel →
      ∃ t p, solveAux a fuel remaining first = some (SolveResult.trace t) ∧
        t.getLast? = some p ∧ p.2 = [] ∧ p.1 ≠ a := by
  intro fuel
  induction fuel with
  | zero => intro remaining first _ _ _ hfuel; exact absurd hfuel (Nat.not_lt_zero _)
  | succ fuel ih =>
    intro remaining first hnot hne hlen hfuel
    obtain ⟨guess, hsel, hgmem⟩ := selector_mem remaining first hne
    have hga : guess ≠ a := fun h => hnot (h ▸ hgmem)
    have hnot2 : a ∉ remaining.filter
        (fun w => decide (feedback guess w = feedback guess a)) :=
      fun h => hnot (List.mem_of_mem_filter h)
    have hlen2 : ∀ w ∈ remaining.filter
        (fun w => decide (feedback guess w = feedback guess a)), w.length = 5 :=
      fun w hw => hlen w (List.mem_of_mem_filter hw)
    have hglt : (remaining.filter
        (fun w => decide (feedback guess w = feedback guess a))).length < remaining.length := by
      refine filter_length_lt _ remaining guess hgmem ?_
      have := guess_not_mem_filter guess a (hlen guess hgmem) ha hga remaining
      by_contra hfalse
      exact this (List.mem_filter.2 ⟨hgmem, by simpa using hfalse⟩)
    by_cases hr2 : remaining.filter
        (fun w => decide (feedback guess w = feedback guess a)) = []
    · refine ⟨[(guess, remaining.filter
        (fun w => decide (feedback guess w = feedback guess a)))],
        (guess, remaining.filter
          (fun w => decide (feedback guess w = feedback guess a))), ?_, rfl, hr2, hga⟩
      rw [solveAux, hsel]
      simp only [if_pos (Or.inr hr2)]
    · have hfuel2 : (remaining.filter
          (fun w => decide (feedback guess w = feedback guess a))).length < fuel :=
        Nat.lt_of_lt_of_le hglt (Nat.lt_succ_iff.1 hfuel)
      obtain ⟨t, p, ht, hlast, hp2, hp1⟩ :=
        ih (remaining.filter (fun w => decide (feedback guess w = feedback guess a)))
          false hnot2 hr2 hlen2 hfuel2
      have htne : t ≠ [] := by
        intro hcontra
        rw [hcontra] at hlast
        exact Option.noConfusion hlast
      refine ⟨(guess, remaining.filter
        (fun w => decide (feedback guess w = feedback guess a))) :: t, p, ?_, ?_, hp2, hp1⟩
      · have hcond : ¬(guess = a ∨ remaining.filter
            (fun w => decide (feedback guess w = feedback guess a)) = []) := by
          push_neg
          exact ⟨hga, hr2⟩
        rw [solveAux, hsel]
        simp only [if_neg hcond]
        rw [ht]
      · cases t with
        | nil => exact absurd rfl htne
        | cons q t => rw [List.getLast?_cons_cons]; exact hlast

theorem list_sum_nonpos : ∀ (l : List ℝ), (∀ x ∈ l, x ≤ 0) → l.sum ≤ 0 := by
  intro l
  induction l with
  | nil => intro _; simp
  | cons x l ih =>
    intro h
    rw [List.sum_cons]
    have hx := h x (by simp)
    have hl := ih (fun y hy => h y (by simp [hy]))
    linarith

theorem list_sum_eq_zero_nonpos : ∀ (l : List ℝ),
    (∀ x ∈ l, x ≤ 0) → l.sum = 0 → ∀ x ∈ l, x = 0 := by
  intro l
  induction l with
  | nil => intro _ _ x hx; exact absurd hx (List.not_mem_nil x)
  | cons y l ih =>
    intro h hsum x hx
    rw [List.sum_cons] at hsum
    have hy := h y (by simp)
    have hl := list_sum_nonpos l (fun z hz => h z (by simp [hz]))
    have hy0 : y = 0 := by linarith
    have hl0 : l.sum = 0 := by linarith
    rcases List.mem_cons.1 hx with rfl | hx
    · exact hy0
    · exact ih (fun z hz => h z (by simp [hz])) hl0 x hx

/-- Claim C6: for every word `g` and nonempty candidate list `C`, the
entropy `calculate_entropy g C` is non-negative, and it is zero exactly
when every word of `C` produces the same feedback pattern against `g`. -/
theorem C6_entropy_nonneg_zero_iff (g : Word) (C : List Word) (hC : C ≠ []) :
    0 ≤ calculate_entropy g C ∧
      (calculate_entropy g C = 0 ↔ ∀ w ∈ C, ∀ w' ∈ C, feedback g w = feedback g w') := by
  have htotpos : (0 : ℝ) < (C.length : ℝ) := by
    have : 0 < C.length := List.length_pos.2 hC
    exact_mod_cast this
  have hterm_nonpos : ∀ pat ∈ (C.map (fun w => feedback g w)).dedup,
      (((C.map (fun w => feedback g w)).count pat : ℝ) / (C.length : ℝ)) *
        Real.logb 2 (((C.map (fun w => feedback g w)).count pat : ℝ) / (C.length : ℝ)) ≤ 0 := by
    intro pat hpat
    have hmem : pat ∈ C.map (fun w => feedback g w) := List.mem_dedup.1 hpat
    have hcpos : 0 < (C.map (fun w => feedback g w)).count pat := List.count_pos_iff.2 hmem
    have hcle : (C.map (fun w => feedback g w)).count pat ≤ C.length := by
      have := List.count_le_length pat (C.map (fun w => feedback g w))
      simpa using this
    have hppos : (0 : ℝ) < ((C.map (fun w => feedback g w)).count pat : ℝ) / (C.length : ℝ) := by
      apply div_pos _ htotpos
      exact_mod_cast hcpos
    have hple : ((C.map (fun w => feedback g w)).count pat : ℝ) / (C.length : ℝ) ≤ 1 := by
      rw [div_le_one htotpos]
      exact_mod_cast hcle
    exact mul_nonpos_iff.2
      (Or.inl ⟨le_of_lt hppos, Real.logb_nonpos one_lt_two (le_of_lt hppos) hple⟩)
  constructor
  · unfold calculate_entropy
    have hsum := list_sum_nonpos _ (fun x hx => by
      obtain ⟨pat, hpat, rfl⟩ := List.mem_map.1 hx
      exact hterm_nonpos pat hpat)
    linarith [hsum]
  · constructor
    · intro h0
      intro w hw w' hw'
      unfold calculate_entropy at h0
      have hsum0 : ((C.map (fun w => feedback g w)).dedup.map (fun pat =>
          (((C.map (fun w => feedback g w)).count pat : ℝ) / (C.length : ℝ)) *
            Real.logb 2
              (((C.map (fun w => feedback g w)).count pat : ℝ) / (C.length : ℝ)))).sum = 0 := by
        linarith [h0]
      have hall := list_sum_eq_zero_nonpos _ (fun x hx => by
        obtain ⟨pat, hpat, rfl⟩ := List.mem_map.1 hx
        exact hterm_nonpos pat hpat) hsum0
      have hpat0 : feedback g w ∈ C.map (fun w => feedback g w) :=
        List.mem_map.2 ⟨w, hw, rfl⟩
      have hterm0 := hall _ (List.mem_map.2 ⟨feedback g w, List.mem_dedup.2 hpat0, rfl⟩)
      have hcpos : 0 < (C.map (fun v => feedback g v)).count (feedback g w) :=
        List.count_pos_iff.2 hpat0
      have hppos : (0 : ℝ) <
          (((C.map (fun v => feedback g v)).count (feedback g w) : ℝ) / (C.length : ℝ)) := by
        apply div_pos _ htotpos
        exact_mod_cast hcpos
      have hlogb0 : Real.logb 2
          (((C.map (fun v => feedback g v)).count (feedback g w) : ℝ) / (C.length : ℝ)) = 0 := by
        rcases mul_eq_zero.1 hterm0 with hp | hl
        · exact absurd hp (ne_of_gt hppos)
        · exact hl
      have hp1 : (((C.map (fun v => feedback g v)).count (feedback g w) : ℝ) /
          (C.length : ℝ)) = 1 :=
        Real.eq_one_of_pos_of_logb_eq_zero one_lt_two hppos hlogb0
      have hcntn : (C.map (fun v => feedback g v)).count (feedback g w) =
          (C.map (fun v => feedback g v)).length := by
        rw [List.length_map]
        field_simp at hp1
        exact hp1
      have hallb := List.count_eq_length.1 hcntn
      exact (hallb (feedback g w') (List.mem_map.2 ⟨w', hw', rfl⟩))
    · intro hsame
      unfold calculate_entropy
      have hzero : ∀ x ∈ (C.map (fun w => feedback g w)).dedup.map (fun pat =>
          (((C.map (fun w => feedback g w)).count pat : ℝ) / (C.length : ℝ)) *
            Real.logb 2
              (((C.map (fun w => feedback g w)).count pat : ℝ) / (C.length : ℝ))), x = 0 := by
        intro x hx
        obtain ⟨pat, hpat, rfl⟩ := List.mem_map.1 hx
        have hmem : pat ∈ C.map (fun w => feedback g w) := List.mem_dedup.1 hpat
        obtain ⟨w0, hw0, hw0e⟩ := List.mem_map.1 hmem
        have hcnt : (C.map (fun w => feedback g w)).count pat =
            (C.map (fun w => feedback g w)).length := by
          apply List.count_eq_length.2
          intro b hb
          obtain ⟨w1, hw1, hw1e⟩ := List.mem_map.1 hb
          rw [← hw0e, ← hw1e]
          exact hsame w0 hw0 w1 hw1
        rw [hcnt]
        rw [List.length_map]
        rw [div_self (ne_of_gt htotpos)]
        simp [Real.logb_one]
      have hsum0 := List.sum_eq_zero hzero
      simp only [hsum0]
      ring

/-- Witness for C6 at a concrete singleton candidate list. -/
theorem C6_witness :
    ([['A','A','A','A','A']] : List Word) ≠ [] ∧
    (0 ≤ calculate_entropy ['A','A','A','A','A'] [['A','A','A','A','A']] ∧
      (calculate_entropy ['A','A','A','A','A'] [['A','A','A','A','A']] = 0 ↔
        ∀ w ∈ ([['A','A','A','A','A']] : List Word),
          ∀ w' ∈ ([['A','A','A','A','A']] : List Word),
            feedback ['A','A','A','A','A'] w = feedback ['A','A','A','A','A'] w')) :=
  ⟨by decide,
    C6_entropy_nonneg_zero_iff ['A','A','A','A','A'] [['A','A','A','A','A']] (by decide)⟩

/-- Claim C1: when the answer is among the (five-letter) candidates,
`solve_wordle` terminates with a nonempty attempt trace, the last guess
equals the answer, and the remaining-candidate counts are non-increasing
across attempts. -/
theorem C1_solve_terminates_with_answer (C : List Word) (a : Word)
    (hmem : a ∈ C) (hlen : ∀ w ∈ C, w.length = 5) :
    ∃ t, solve_wordle C a = some (SolveResult.trace t) ∧ t ≠ [] ∧
      (t.map Prod.fst).getLast? = some a ∧
      List.Chain' (fun m n => n ≤ m) (C.length :: t.map (fun p => p.2.length)) := by
  obtain ⟨t, h1, h2, h3, h4, -⟩ :=
    solveAux_sound a (C.length + 1) C true hmem hlen (Nat.lt_succ_self _)
  exact ⟨t, h1, h2, h3, h4⟩

/-- Witness for C1 on a concrete singleton candidate list containing the
answer. -/
theorem C1_witness :
    ((['A','A','A','A','A'] : Word) ∈ ([['A','A','A','A','A']] : List Word) ∧
      (∀ w ∈ ([['A','A','A','A','A']] : List Word), w.length = 5)) ∧
    (∃ t, solve_wordle [['A','A','A','A','A']] ['A','A','A','A','A'] =
        some (SolveResult.trace t) ∧ t ≠ [] ∧
      (t.map Prod.fst).getLast? = some ['A','A','A','A','A'] ∧
      List.Chain' (fun m n => n ≤ m)
        (([['A','A','A','A','A']] : List Word).length :: t.map (fun p => p.2.length))) :=
  ⟨⟨by decide, by decide⟩,
    C1_solve_terminates_with_answer [['A','A','A','A','A']] ['A','A','A','A','A']
      (by decide) (by decide)⟩

/-- Claim C2: filtering by agreement with the answer's feedback pattern
never removes the answer, and consequently the answer stays in every
remaining candidate set the elimination loop produces. -/
theorem C2_filter_soundness (a : Word) (C : List Word) (hmem : a ∈ C)
    (hlen : ∀ w ∈ C, w.length = 5) :
    (∀ g : Word, a ∈ C.filter (fun w => decide (feedback g w = feedback g a))) ∧
    (∀ t, solve_wordle C a = some (SolveResult.trace t) → ∀ p ∈ t, a ∈ p.2) := by
  refine ⟨fun g => answer_mem_filter g a C hmem, ?_⟩
  intro t ht p hp
  obtain ⟨t0, h1, -, -, -, h5⟩ :=
    solveAux_sound a (C.length + 1) C true hmem hlen (Nat.lt_succ_self _)
  unfold solve_wordle at ht
  rw [h1] at ht
  have heq : t0 = t := by
    injection ht with ht2
    injection ht2
  rw [← heq] at hp
  exact (h5 p hp).1

/-- Witness for C2 on a concrete candidate list. -/
theorem C2_witness :
    ((['A','A','A','A','A'] : Word) ∈
        ([['C','C','C','C','C'], ['A','A','A','A','A']] : List Word) ∧
      (∀ w ∈ ([['C','C','C','C','C'], ['A','A','A','A','A']] : List Word), w.length = 5)) ∧
    ((∀ g : Word, ['A','A','A','A','A'] ∈
        ([['C','C','C','C','C'], ['A','A','A','A','A']] : List Word).filter
          (fun w => decide (feedback g w = feedback g ['A','A','A','A','A']))) ∧
      (∀ t, solve_wordle [['C','C','C','C','C'], ['A','A','A','A','A']] ['A','A','A','A','A'] =
          some (SolveResult.trace t) → ∀ p ∈ t, ['A','A','A','A','A'] ∈ p.2)) :=
  ⟨⟨by decide, by decide⟩,
    C2_filter_soundness ['A','A','A','A','A'] [['C','C','C','C','C'], ['A','A','A','A','A']]
      (by decide) (by decide)⟩

/-- Claim C3: `feedback("ROBOT", "WORLD")` is Present, Correct, Absent,
Absent, Absent — the exact-position 'O' claims the answer's 'O' first and
the guess's 'R' is marked Present against the unclaimed 'R'. -/
theorem C3_feedback_robot_world :
    feedback ['R','O','B','O','T'] ['W','O','R','L','D'] = ['Y','G','B','B','B'] := by
  decide

/-- Claim C4 (code bug): the code reports a run that exhausts the
candidates with the very same undifferentiated value as a solved run —
the bare attempts list — instead of a distinct failure outcome.  Here the
solved run on answer AAAAA and the exhausted run on answer BBBBB both
return exactly `["AAAAA"]`. -/
theorem C4_result_undifferentiated :
    solve_attempts [['A','A','A','A','A']] ['A','A','A','A','A'] =
      some [['A','A','A','A','A']] ∧
    solve_attempts [['A','A','A','A','A']] ['B','B','B','B','B'] =
      some [['A','A','A','A','A']] ∧
    (['A','A','A','A','A'] : Word) ≠ ['B','B','B','B','B'] :=
  ⟨by decide, by decide, by decide⟩

/-- Counterexample for C5 as stated: on the empty candidate list the loop
does not exit through the empty-candidate-set break — the initial
selector raises `ValueError` (max of an empty sequence) on the very first
iteration, so no attempt trace is produced. -/
theorem C5_counterexample_empty_candidates :
    solve_wordle [] ['A','A','A','A','A'] = some SolveResult.valueError := by
  decide

/-- Claim C5 (amended to nonempty candidate lists): when the five-letter
answer is not among the nonempty five-letter candidates, `solve_wordle`
terminates via the empty-candidate-set condition: the trace's last record
has an empty remaining set and a final guess different from the answer. -/
theorem C5_solve_exhausts (C : List Word) (a : Word) (hne : C ≠ []) (hnot : a ∉ C)
    (hlen : ∀ w ∈ C, w.length = 5) (ha : a.length = 5) :
    ∃ t p, solve_wordle C a = some (SolveResult.trace t) ∧
      t.getLast? = some p ∧ p.2 = [] ∧ p.1 ≠ a :=
  solveAux_exhausts a ha (C.length + 1) C true hnot hne hlen (Nat.lt_succ_self _)

/-- Witness for C5 on a concrete run whose answer is absent. -/
theorem C5_witness :
    (([['A','A','A','A','A']] : List Word) ≠ [] ∧
      (['B','B','B','B','B'] : Word) ∉ ([['A','A','A','A','A']] : List Word) ∧
      (∀ w ∈ ([['A','A','A','A','A']] : List Word), w.length = 5) ∧
      (['B','B','B','B','B'] : Word).length = 5) ∧
    (∃ t p, solve_wordle [['A','A','A','A','A']] ['B','B','B','B','B'] =
        some (SolveResult.trace t) ∧
      t.getLast? = some p ∧ p.2 = [] ∧ p.1 ≠ ['B','B','B','B','B']) :=
  ⟨⟨by decide, by decide, by decide, by decide⟩,
    C5_solve_exhausts [['A','A','A','A','A']] ['B','B','B','B','B']
      (by decide) (by decide) (by decide) (by decide)⟩

/-- Claim C7: on a nonempty list of five-letter candidates,
`select_initial_word` returns the first word attaining the maximum of the
frequency score: every earlier word scores strictly less and every later
word scores no more. -/
theorem C7_select_initial_first_max (C : List Word) (hne : C ≠ [])
    (hlen : ∀ w ∈ C, w.length = 5) :
    ∃ w l₁ l₂, select_initial_word C = some w ∧ C = l₁ ++ w :: l₂ ∧
      (∀ v ∈ l₁, scoreWord C v < scoreWord C w) ∧
      (∀ v ∈ l₂, scoreWord C v ≤ scoreWord C w) := by
  cases C with
  | nil => exact absurd rfl hne
  | cons x ws =>
    obtain ⟨l₁, l₂, heq, h₁, h₂⟩ := argmax_foldl_firstMax (scoreWord (x :: ws)) ws x
    exact ⟨_, l₁, l₂, rfl, heq, h₁, h₂⟩

/-- Witness for C7 on a concrete two-word candidate list. -/
theorem C7_witness :
    (([['A','B','C','D','E'], ['A','B','C','D','F']] : List Word) ≠ [] ∧
      (∀ w ∈ ([['A','B','C','D','E'], ['A','B','C','D','F']] : List Word), w.length = 5)) ∧
    (∃ w l₁ l₂,
      select_initial_word [['A','B','C','D','E'], ['A','B','C','D','F']] = some w ∧
      ([['A','B','C','D','E'], ['A','B','C','D','F']] : List Word) = l₁ ++ w :: l₂ ∧
      (∀ v ∈ l₁, scoreWord [['A','B','C','D','E'], ['A','B','C','D','F']] v <
        scoreWord [['A','B','C','D','E'], ['A','B','C','D','F']] w) ∧
      (∀ v ∈ l₂, scoreWord [['A','B','C','D','E'], ['A','B','C','D','F']] v ≤
        scoreWord [['A','B','C','D','E'], ['A','B','C','D','F']] w)) :=
  ⟨⟨by decide, by decide⟩,
    C7_select_initial_first_max [['A','B','C','D','E'], ['A','B','C','D','F']]
      (by decide) (by decide)⟩

/-- Claim C8: on the empty candidate set both selectors fail fast —
neither returns a word (Python's `max` raises `ValueError`). -/
theorem C8_selectors_fail_on_empty :
    select_initial_word [] = none ∧ select_best_entropy_word [] = none :=
  ⟨rfl, rfl⟩

/-- Claim C9: the feedback of any five-letter word against itself is the
all-Correct pattern. -/
theorem C9_feedback_self_all_correct (w : Word) (h : w.length = 5) :
    feedback w w = List.replicate 5 'G' := by
  rw [feedback_self, h]

/-- Witness for C9 at a concrete word. -/
theorem C9_witness :
    (['C','R','A','N','E'] : Word).length = 5 ∧
    feedback ['C','R','A','N','E'] ['C','R','A','N','E'] = List.replicate 5 'G' :=
  ⟨by decide, C9_feedback_self_all_correct ['C','R','A','N','E'] (by decide)⟩

/-- Claim C10: an all-Correct feedback pattern forces guess = answer, so
a wrong guess never survives the elimination filter of a set containing
it. -/
theorem C10_all_green_forces_eq (g a : Word) (hg : g.length = 5) (ha : a.length = 5) :
    (feedback g a = List.replicate 5 'G' → g = a) ∧
    (g ≠ a → ∀ C : List Word,
      g ∉ C.filter (fun w => decide (feedback g w = feedback g a))) := by
  constructor
  · intro h
    exact feedback_all_G_imp_eq g a (hg.trans ha.symm) (by rw [hg]; exact h)
  · intro hne C
    exact guess_not_mem_filter g a hg ha hne C

/-- Witness for C10 at two concrete distinct words. -/
theorem C10_witness :
    ((['A','A','A','A','A'] : Word).length = 5 ∧
      (['B','B','B','B','B'] : Word).length = 5) ∧
    ((feedback ['A','A','A','A','A'] ['B','B','B','B','B'] = List.replicate 5 'G' →
        (['A','A','A','A','A'] : Word) = ['B','B','B','B','B']) ∧
      ((['A','A','A','A','A'] : Word) ≠ ['B','B','B','B','B'] → ∀ C : List Word,
        ['A','A','A','A','A'] ∉ C.filter (fun w => decide
          (feedback ['A','A','A','A','A'] w =
            feedback ['A','A','A','A','A'] ['B','B','B','B','B'])))) :=
  ⟨⟨by decide, by decide⟩,
    C10_all_green_forces_eq ['A','A','A','A','A'] ['B','B','B','B','B']
      (by decide) (by decide)⟩
